import Mathlib

/-
  Verification development for the LiteLDev/Demangler repository.

  The embedding covers:
  - the dispatcher in src/src/Demangle.cpp: demangle, nonMicrosoftDemangle,
    isItaniumEncoding, isRustEncoding, isDLangEncoding;
  - the arena allocator and backreference tables declared in
    src/include/demangler/MicrosoftDemangle.h.

  Strings are embedded as List Char. The external demanglers
  (itaniumDemangle, rustDemangle, dlangDemangle, microsoftDemangle) are
  declared but not defined in this repository; the spec treats them as
  external collaborators, so they appear here as function parameters
  returning Option (List Char), where none models a returned nullptr.
-/

set_option autoImplicit false

namespace Demangler

/-- Type of the external demanglers rustDemangle, dlangDemangle and
microsoftDemangle: a mangled name either demangles to some text or fails
(nullptr, modelled as none). -/
abbrev ExtDemangler := List Char → Option (List Char)

/-- Type of the external itaniumDemangle: it also receives the ParseParams
flag. -/
abbrev ItaniumDemangler := List Char → Bool → Option (List Char)

/-- Modelled from the spec: starts_with from StringViewExtras.h (the header
is not under src/); the spec describes the D and Rust rules as:
begins with the two-character sequence. -/
def startsWithChar (s : List Char) (c : Char) : Bool :=
  match s with
  | [] => false
  | a :: _ => a == c

/-- Modelled from the spec: starts_with for a two-character pattern,
used by isRustEncoding and isDLangEncoding. -/
def startsWith2 (c1 c2 : Char) (s : List Char) : Bool :=
  match s with
  | a :: b :: _ => a == c1 && b == c2
  | _ => false

/-- std::string_view::find_first_not_of: index of the first character that
differs from c; none models npos (not found). Demangle.cpp line 44. -/
def findFirstNotOf (s : List Char) (c : Char) : Option Nat :=
  match s with
  | [] => none
  | a :: t => if a != c then some 0 else (findFirstNotOf t c).map (· + 1)

/-- isItaniumEncoding, Demangle.cpp lines 42 to 46.
In C++ the npos case is rejected by the test Pos <= 4 before S[Pos] is
evaluated; here the none branch returns false without any indexing. -/
def isItaniumEncoding (s : List Char) : Bool :=
  match findFirstNotOf s '_' with
  | none => false
  | some pos => decide (0 < pos) && decide (pos ≤ 4) && decide (s.get? pos = some 'Z')

/-- isRustEncoding, Demangle.cpp line 48. -/
def isRustEncoding (s : List Char) : Bool := startsWith2 '_' 'R' s

/-- isDLangEncoding, Demangle.cpp line 50. -/
def isDLangEncoding (s : List Char) : Bool := startsWith2 '_' 'D' s

/-- The discriminator chain inside nonMicrosoftDemangle, Demangle.cpp
lines 66 to 68: Itanium is tried first, then Rust, then D; when no rule
matches, Demangled stays nullptr (none). -/
def sniffDemangle (it : ItaniumDemangler) (ru dl : ExtDemangler)
    (ParseParams : Bool) (m : List Char) : Option (List Char) :=
  if isItaniumEncoding m then it m ParseParams
  else if isRustEncoding m then ru m
  else if isDLangEncoding m then dl m
  else none

/-- nonMicrosoftDemangle, Demangle.cpp lines 52 to 75. The Result string is
passed by reference in C++, so the function takes its current value and
returns the pair (return value, new Result value). -/
def nonMicrosoftDemangle (it : ItaniumDemangler) (ru dl : ExtDemangler)
    (MangledName Result : List Char)
    (CanHaveLeadingDot ParseParams : Bool) : Bool × List Char :=
  let st :=
    if CanHaveLeadingDot && decide (0 < MangledName.length)
        && decide (MangledName.head? = some '.') then
      (MangledName.drop 1, ['.'])
    else
      (MangledName, Result)
  match sniffDemangle it ru dl ParseParams st.1 with
  | none => (false, st.2)
  | some d => (true, st.2 ++ d)

/-- demangle, Demangle.cpp lines 20 to 40.
Modelled from the spec: the default arguments of nonMicrosoftDemangle live
in the header demangler/Demangle.h, which is not under src/; the spec gives
canHaveLeadingDot=false and parseParams=true, so the first call passes
false and true. -/
def demangle (it : ItaniumDemangler) (ru dl ms : ExtDemangler)
    (MangledName : List Char) : List Char :=
  let r1 := nonMicrosoftDemangle it ru dl MangledName [] false true
  if r1.1 then r1.2
  else if startsWithChar MangledName '_'
      && (nonMicrosoftDemangle it ru dl (MangledName.drop 1) r1.2 false true).1 then
    (nonMicrosoftDemangle it ru dl (MangledName.drop 1) r1.2 false true).2
  else
    match ms MangledName with
    | some d => d
    | none => MangledName

/-- The demanglers the dispatcher can invoke. -/
inductive DKind where
  | itanium
  | rust
  | dlang
  | microsoft
deriving DecidableEq, Repr

/-- One external-demangler invocation: which demangler was called and on
which argument. -/
abbrev Call := DKind × List Char

/-- The invocations performed by the discriminator chain of
nonMicrosoftDemangle on input m: exactly one external call when a prefix
rule matches, none otherwise. -/
def sniffCalls (m : List Char) : List Call :=
  if isItaniumEncoding m then [(DKind.itanium, m)]
  else if isRustEncoding m then [(DKind.rust, m)]
  else if isDLangEncoding m then [(DKind.dlang, m)]
  else []

/-- nonMicrosoftDemangle instrumented with the list of external-demangler
invocations it performs; the first component agrees with
nonMicrosoftDemangle (lemma nonMicrosoftDemangleT_fst). -/
def nonMicrosoftDemangleT (it : ItaniumDemangler) (ru dl : ExtDemangler)
    (MangledName Result : List Char)
    (CanHaveLeadingDot ParseParams : Bool) : (Bool × List Char) × List Call :=
  let st :=
    if CanHaveLeadingDot && decide (0 < MangledName.length)
        && decide (MangledName.head? = some '.') then
      (MangledName.drop 1, ['.'])
    else
      (MangledName, Result)
  let r :=
    match sniffDemangle it ru dl ParseParams st.1 with
    | none => (false, st.2)
    | some d => (true, st.2 ++ d)
  (r, sniffCalls st.1)

/-- demangle instrumented with the list of demangler invocations it
performs, in order: the non-Microsoft attempt on the input, then (if that
fails and the input starts with an underscore) the retry on the tail, then
(if that also fails or is skipped) the Microsoft parser on the input. The
first component agrees with demangle (lemma demangleT_fst). -/
def demangleT (it : ItaniumDemangler) (ru dl ms : ExtDemangler)
    (MangledName : List Char) : List Char × List Call :=
  let r1 := nonMicrosoftDemangleT it ru dl MangledName [] false true
  if r1.1.1 then (r1.1.2, r1.2)
  else if startsWithChar MangledName '_' then
    let r2 := nonMicrosoftDemangleT it ru dl (MangledName.drop 1) r1.1.2 false true
    if r2.1.1 then (r2.1.2, r1.2 ++ r2.2)
    else
      match ms MangledName with
      | some d => (d, r1.2 ++ r2.2 ++ [(DKind.microsoft, MangledName)])
      | none => (MangledName, r1.2 ++ r2.2 ++ [(DKind.microsoft, MangledName)])
  else
    match ms MangledName with
    | some d => (d, r1.2 ++ [(DKind.microsoft, MangledName)])
    | none => (MangledName, r1.2 ++ [(DKind.microsoft, MangledName)])

namespace ms_demangle

/-- AllocUnit, MicrosoftDemangle.h line 24. -/
def AllocUnit : Nat := 4096

/-- One block of the arena, MicrosoftDemangle.h lines 27 to 32. Buf is the
base address of the buffer returned by new, modelled as a plain number
supplied by the caller of the allocating operations. -/
structure AllocatorNode where
  Buf : Nat
  Used : Nat
  Capacity : Nat
deriving DecidableEq, Repr

/-- The arena is the singly linked list of blocks, most recent (Head)
first. -/
abbrev Arena := List AllocatorNode

/-- addNode, MicrosoftDemangle.h lines 34 to 41: a fresh block with the
given capacity becomes the new head; newBuf is the address handed out by
new for its buffer. -/
def addNode (newBuf Capacity : Nat) (a : Arena) : Arena :=
  { Buf := newBuf, Used := 0, Capacity := Capacity } :: a

/-- The C++ expression (P + align - 1) and not (align - 1): for align a
positive power of two, masking off the low bits equals subtracting the
remainder modulo align, which is how it is written here over Nat. -/
def alignUp (p align : Nat) : Nat :=
  (p + align - 1) - (p + align - 1) % align

/-- allocUnalignedBuffer, MicrosoftDemangle.h lines 60 to 71. Returns the
new arena and the address of the allocation. The empty-arena case is the
DEMANGLE_ASSERT, unreachable because the constructor installs one block. -/
def allocUnalignedBuffer (newBuf Size : Nat) : Arena → Arena × Nat
  | [] => ([], 0)
  | h :: t =>
    let P := h.Buf + h.Used
    let used := h.Used + Size
    if used ≤ h.Capacity then
      ({ h with Used := used } :: t, P)
    else
      ({ Buf := newBuf, Used := Size, Capacity := max AllocUnit Size }
        :: { h with Used := used } :: t, newBuf)

/-- allocArray, MicrosoftDemangle.h lines 73 to 89, abstracted over the
element size and alignment of T. As in the C++, the head block keeps its
inflated Used count when the allocation overflows into a fresh block. -/
def allocArray (newBuf sizeT alignT Count : Nat) : Arena → Arena × Nat
  | [] => ([], 0)
  | h :: t =>
    let Size := Count * sizeT
    let P := h.Buf + h.Used
    let AlignedP := alignUp P alignT
    let Adjustment := AlignedP - P
    let used := h.Used + Size + Adjustment
    if used ≤ h.Capacity then
      ({ h with Used := used } :: t, AlignedP)
    else
      ({ Buf := newBuf, Used := Size, Capacity := max AllocUnit Size }
        :: { h with Used := used } :: t, newBuf)

/-- alloc, MicrosoftDemangle.h lines 91 to 108, abstracted over the size
and alignment of T. The overflow branch adds a block of exactly AllocUnit;
the C++ static_assert (Size < AllocUnit) appears as a hypothesis of the
theorems about this branch. -/
def alloc (newBuf sizeT alignT : Nat) : Arena → Arena × Nat
  | [] => ([], 0)
  | h :: t =>
    let Size := sizeT
    let P := h.Buf + h.Used
    let AlignedP := alignUp P alignT
    let Adjustment := AlignedP - P
    let used := h.Used + Size + Adjustment
    if used ≤ h.Capacity then
      ({ h with Used := used } :: t, AlignedP)
    else
      ({ Buf := newBuf, Used := Size, Capacity := AllocUnit }
        :: { h with Used := used } :: t, newBuf)

/-- BackrefContext.Max, MicrosoftDemangle.h line 115. -/
def BackrefMax : Nat := 10

/-- BackrefContext, MicrosoftDemangle.h lines 114 to 124. The two
fixed-capacity arrays with their running counts are modelled as the lists
of entries actually stored (nodes are identified by numbers), so the
running count is the length and slots past the count do not exist. -/
structure BackrefContext where
  FunctionParams : List Nat
  Names : List Nat
deriving DecidableEq, Repr

/-- The initial context of a session: both counts zero. -/
def BackrefContext.init : BackrefContext := ⟨[], []⟩

/-- FunctionParamCount field. -/
def BackrefContext.FunctionParamCount (c : BackrefContext) : Nat :=
  c.FunctionParams.length

/-- NamesCount field. -/
def BackrefContext.NamesCount (c : BackrefContext) : Nat :=
  c.Names.length

/-- Modelled from the spec: the parser bodies (MicrosoftDemangle.cpp) are
not under src/. Per spec section 4.2, memorizeIdentifier appends a parsed
name to the Names table, and once the table reaches 10 entries further
candidates are simply not memorized (not an error). -/
def BackrefContext.memorizeName (c : BackrefContext) (n : Nat) : BackrefContext :=
  if c.Names.length < BackrefMax then { c with Names := c.Names ++ [n] } else c

/-- Modelled from the spec: function-parameter dedup appends a parsed type
to the FunctionParams table, subject to the same capacity-10 rule as
names. -/
def BackrefContext.memorizeFunctionParam (c : BackrefContext) (n : Nat) : BackrefContext :=
  if c.FunctionParams.length < BackrefMax then
    { c with FunctionParams := c.FunctionParams ++ [n] }
  else c

/-- Modelled from the spec: lookup by backref digit is a direct
bounds-checked index into the Names table; an out-of-range index is a
parse failure (none models the Error = true outcome), never a wrap-around
or a read of a slot past the count. -/
def BackrefContext.lookupName (c : BackrefContext) (k : Nat) : Option Nat :=
  c.Names.get? k

/-- Modelled from the spec: bounds-checked lookup into the FunctionParams
table, failing (none) when the digit is not below the current count. -/
def BackrefContext.lookupFunctionParam (c : BackrefContext) (k : Nat) : Option Nat :=
  c.FunctionParams.get? k

/-- A memorization step of one parse session: the only operations that
grow the backref tables. -/
inductive BackrefOp where
  | memName (n : Nat)
  | memParam (n : Nat)
deriving DecidableEq, Repr

/-- Apply one memorization step. -/
def applyBackrefOp (c : BackrefContext) : BackrefOp → BackrefContext
  | BackrefOp.memName n => c.memorizeName n
  | BackrefOp.memParam n => c.memorizeFunctionParam n

/-- Run the memorization steps of a parse session from a given context. -/
def runBackrefOps : List BackrefOp → BackrefContext → BackrefContext
  | [], c => c
  | op :: t, c => runBackrefOps t (applyBackrefOp c op)

end ms_demangle

/-- The classification the spec states for Itanium-style inputs: between
one and four leading underscores followed by the letter Z. Written from
the spec words, to be compared with isItaniumEncoding. -/
def ItaniumSpecRule (s : List Char) : Prop :=
  ∃ k rest, 1 ≤ k ∧ k ≤ 4 ∧ s = List.replicate k '_' ++ 'Z' :: rest

/-- The classification the spec states for Rust-language inputs: begins
with underscore R. Written from the spec words, to be compared with
isRustEncoding. -/
def RustSpecRule (s : List Char) : Prop :=
  ∃ rest, s = '_' :: 'R' :: rest

/-- The classification the spec states for D-language inputs: begins with
underscore D. Written from the spec words, to be compared with
isDLangEncoding. -/
def DLangSpecRule (s : List Char) : Prop :=
  ∃ rest, s = '_' :: 'D' :: rest

/- ------------------------------------------------------------------ -/
/- Helper lemmas                                                      -/
/- ------------------------------------------------------------------ -/

lemma findFirstNotOf_eq_some_iff (s : List Char) (c : Char) (pos : Nat) :
    findFirstNotOf s c = some pos ↔
      ∃ a rest, a ≠ c ∧ s = List.replicate pos c ++ a :: rest := by
  induction s generalizing pos with
  | nil =>
    simp only [findFirstNotOf]
    constructor
    · intro h; cases h
    · rintro ⟨a, rest, _, h⟩
      exact absurd h (by cases pos <;> simp)
  | cons x t ih =>
    simp only [findFirstNotOf]
    by_cases hx : x = c
    · have hbne : (x != c) = false := by simp [hx]
      simp only [hbne, Bool.false_eq_true, if_false, Option.map_eq_some']
      constructor
      · rintro ⟨q, hq, rfl⟩
        obtain ⟨a, rest, ha, hs⟩ := (ih q).1 hq
        exact ⟨a, rest, ha, by simp [hs, hx, List.replicate_succ]⟩
      · rintro ⟨a, rest, ha, hs⟩
        cases pos with
        | zero =>
          exfalso
          simp only [List.replicate_zero, List.nil_append, List.cons.injEq] at hs
          exact ha (hs.1.symm.trans hx)
        | succ q =>
          have hs2 : t = List.replicate q c ++ a :: rest := by
            rw [hx] at hs
            simpa [List.replicate_succ] using hs
          exact ⟨q, (ih q).2 ⟨a, rest, ha, hs2⟩, rfl⟩
    · have hbne : (x != c) = true := by simpa using hx
      simp only [hbne, if_true]
      constructor
      · intro h
        cases h
        exact ⟨x, t, hx, by simp⟩
      · rintro ⟨a, rest, ha, hs⟩
        cases pos with
        | zero => rfl
        | succ q =>
          exfalso
          simp only [List.replicate_succ, List.cons_append, List.cons.injEq] at hs
          exact hx hs.1

lemma findFirstNotOf_eq_none_iff (s : List Char) (c : Char) :
    findFirstNotOf s c = none ↔ ∀ a ∈ s, a = c := by
  induction s with
  | nil => simp [findFirstNotOf]
  | cons x t ih =>
    simp only [findFirstNotOf]
    by_cases hx : x = c
    · subst hx
      simp [ih]
    · have hbne : (x != c) = true := by simpa using hx
      simp [hbne, hx]

lemma nonMicrosoftDemangle_noDot (it : ItaniumDemangler) (ru dl : ExtDemangler)
    (s r : List Char) (pp : Bool) :
    nonMicrosoftDemangle it ru dl s r false pp =
      match sniffDemangle it ru dl pp s with
      | none => (false, r)
      | some d => (true, r ++ d) := by
  simp [nonMicrosoftDemangle]

lemma nonMicrosoftDemangle_fst_noDot (it : ItaniumDemangler) (ru dl : ExtDemangler)
    (s r : List Char) (pp : Bool) :
    (nonMicrosoftDemangle it ru dl s r false pp).1 =
      (sniffDemangle it ru dl pp s).isSome := by
  rw [nonMicrosoftDemangle_noDot]
  cases sniffDemangle it ru dl pp s <;> rfl

lemma nonMicrosoftDemangle_snd_of_fail (it : ItaniumDemangler) (ru dl : ExtDemangler)
    (s r : List Char) (pp : Bool)
    (h : (nonMicrosoftDemangle it ru dl s r false pp).1 = false) :
    (nonMicrosoftDemangle it ru dl s r false pp).2 = r := by
  rw [nonMicrosoftDemangle_noDot] at h ⊢
  cases hsd : sniffDemangle it ru dl pp s with
  | none => simp [hsd]
  | some d =>
    rw [hsd] at h
    simp at h

lemma nonMicrosoftDemangleT_noDot (it : ItaniumDemangler) (ru dl : ExtDemangler)
    (s r : List Char) (pp : Bool) :
    nonMicrosoftDemangleT it ru dl s r false pp =
      (nonMicrosoftDemangle it ru dl s r false pp, sniffCalls s) := by
  simp [nonMicrosoftDemangleT, nonMicrosoftDemangle]

lemma sniffCalls_mem (m : List Char) (c : Call) (hc : c ∈ sniffCalls m) :
    c.1 ≠ DKind.microsoft ∧ c.2 = m := by
  cases h1 : isItaniumEncoding m with
  | true =>
    simp only [sniffCalls, h1, if_true, List.mem_singleton] at hc
    subst hc; exact ⟨fun h => DKind.noConfusion h, rfl⟩
  | false =>
    cases h2 : isRustEncoding m with
    | true =>
      simp only [sniffCalls, h1, h2, Bool.false_eq_true, if_false, if_true,
        List.mem_singleton] at hc
      subst hc; exact ⟨fun h => DKind.noConfusion h, rfl⟩
    | false =>
      cases h3 : isDLangEncoding m with
      | true =>
        simp only [sniffCalls, h1, h2, h3, Bool.false_eq_true, if_false, if_true,
          List.mem_singleton] at hc
        subst hc; exact ⟨fun h => DKind.noConfusion h, rfl⟩
      | false =>
        simp only [sniffCalls, h1, h2, h3, Bool.false_eq_true, if_false] at hc
        exact absurd hc (List.not_mem_nil c)

lemma sniffDemangle_eq_none_of_noMatch (it : ItaniumDemangler) (ru dl : ExtDemangler)
    (pp : Bool) (m : List Char)
    (h1 : isItaniumEncoding m = false) (h2 : isRustEncoding m = false)
    (h3 : isDLangEncoding m = false) :
    sniffDemangle it ru dl pp m = none := by
  simp [sniffDemangle, h1, h2, h3]

lemma sniffCalls_eq_nil_of_noMatch (m : List Char)
    (h1 : isItaniumEncoding m = false) (h2 : isRustEncoding m = false)
    (h3 : isDLangEncoding m = false) :
    sniffCalls m = [] := by
  simp [sniffCalls, h1, h2, h3]

lemma demangleT_fst (it : ItaniumDemangler) (ru dl ms : ExtDemangler)
    (s : List Char) :
    (demangleT it ru dl ms s).1 = demangle it ru dl ms s := by
  simp only [demangleT, demangle, nonMicrosoftDemangleT_noDot]
  cases h1 : (nonMicrosoftDemangle it ru dl s [] false true).1 with
  | true => simp [h1]
  | false =>
    simp only [h1, Bool.false_eq_true, if_false, Bool.false_and]
    cases hs : startsWithChar s '_' with
    | true =>
      simp only [hs, Bool.true_and, if_true]
      cases h2 : (nonMicrosoftDemangle it ru dl (s.drop 1)
          (nonMicrosoftDemangle it ru dl s [] false true).2 false true).1 with
      | true => simp [h2]
      | false =>
        simp only [h2, Bool.false_eq_true, if_false]
        cases ms s <;> rfl
    | false =>
      simp only [hs, Bool.false_eq_true, if_false]
      cases ms s <;> rfl

lemma demangleT_trace_of_first_success (it : ItaniumDemangler) (ru dl ms : ExtDemangler)
    (s : List Char)
    (h : (nonMicrosoftDemangle it ru dl s [] false true).1 = true) :
    (demangleT it ru dl ms s).2 = sniffCalls s := by
  simp only [demangleT, nonMicrosoftDemangleT_noDot]
  simp [h]

lemma demangleT_trace_of_first_fail (it : ItaniumDemangler) (ru dl ms : ExtDemangler)
    (s : List Char)
    (h : (nonMicrosoftDemangle it ru dl s [] false true).1 = false) :
    (demangleT it ru dl ms s).2 = sniffCalls s ++ sniffCalls (s.drop 1) ∨
    (demangleT it ru dl ms s).2
      = sniffCalls s ++ sniffCalls (s.drop 1) ++ [(DKind.microsoft, s)] ∨
    (demangleT it ru dl ms s).2 = sniffCalls s ++ [(DKind.microsoft, s)] := by
  simp only [demangleT, nonMicrosoftDemangleT_noDot, h, Bool.false_eq_true, if_false,
    List.drop_one]
  cases hs : startsWithChar s '_' with
  | true =>
    simp only [hs, if_true]
    cases hr2 : (nonMicrosoftDemangle it ru dl s.tail
        (nonMicrosoftDemangle it ru dl s [] false true).2 false true).1 with
    | true => left; simp [hr2]
    | false =>
      right; left
      cases ms s <;> simp [hr2]
  | false =>
    right; right
    simp only [hs, Bool.false_eq_true, if_false]
    cases ms s <;> simp

lemma call_not_on_self_of_mem_drop (s : List Char) (c : Call)
    (hc : c ∈ sniffCalls (s.drop 1)) :
    (c.1 == DKind.microsoft || !(c.2 == s)) = true := by
  have h2 := (sniffCalls_mem _ c hc).2
  cases s with
  | nil =>
    have hnil : sniffCalls (([] : List Char).drop 1) = [] := rfl
    rw [hnil] at hc
    exact absurd hc (List.not_mem_nil c)
  | cons a t =>
    have hfalse : (c.2 == a :: t) = false := by
      rw [beq_eq_false_iff_ne, h2]
      intro hh
      exact List.cons_ne_self a t (by simpa using hh.symm)
    simp [hfalse]

lemma get?_isSome_iff (l : List Nat) (k : Nat) :
    (l.get? k).isSome = true ↔ k < l.length := by
  rw [List.get?_eq_getElem?]
  constructor
  · intro h
    by_contra hk
    rw [List.getElem?_eq_none (Nat.le_of_not_lt hk)] at h
    exact Bool.noConfusion h
  · intro h
    rw [List.getElem?_eq_getElem h]
    rfl

namespace ms_demangle

lemma alignUp_ge (p a : Nat) (ha : 0 < a) : p ≤ alignUp p a := by
  unfold alignUp
  have h1 : (p + a - 1) % a < a := Nat.mod_lt _ ha
  have h2 : (p + a - 1) % a ≤ p + a - 1 := Nat.mod_le _ _
  generalize (p + a - 1) % a = m at h1 h2 ⊢
  omega

lemma memorizeName_names_le (c : BackrefContext) (n : Nat)
    (h : c.Names.length ≤ BackrefMax) :
    (c.memorizeName n).Names.length ≤ BackrefMax := by
  by_cases hlt : c.Names.length < BackrefMax
  · simp only [BackrefContext.memorizeName, hlt, if_true, List.length_append,
      List.length_singleton]
    omega
  · simpa only [BackrefContext.memorizeName, hlt, if_false] using h

lemma memorizeFunctionParam_params_le (c : BackrefContext) (n : Nat)
    (h : c.FunctionParams.length ≤ BackrefMax) :
    (c.memorizeFunctionParam n).FunctionParams.length ≤ BackrefMax := by
  by_cases hlt : c.FunctionParams.length < BackrefMax
  · simp only [BackrefContext.memorizeFunctionParam, hlt, if_true, List.length_append,
      List.length_singleton]
    omega
  · simpa only [BackrefContext.memorizeFunctionParam, hlt, if_false] using h

lemma memorizeName_params_eq (c : BackrefContext) (n : Nat) :
    (c.memorizeName n).FunctionParams = c.FunctionParams := by
  unfold BackrefContext.memorizeName
  split <;> rfl

lemma memorizeFunctionParam_names_eq (c : BackrefContext) (n : Nat) :
    (c.memorizeFunctionParam n).Names = c.Names := by
  unfold BackrefContext.memorizeFunctionParam
  split <;> rfl

lemma applyBackrefOp_le (c : BackrefContext) (op : BackrefOp)
    (hn : c.Names.length ≤ BackrefMax) (hp : c.FunctionParams.length ≤ BackrefMax) :
    (applyBackrefOp c op).Names.length ≤ BackrefMax ∧
      (applyBackrefOp c op).FunctionParams.length ≤ BackrefMax := by
  cases op with
  | memName n =>
    exact ⟨memorizeName_names_le c n hn, by rw [applyBackrefOp, memorizeName_params_eq]; exact hp⟩
  | memParam n =>
    exact ⟨by rw [applyBackrefOp, memorizeFunctionParam_names_eq]; exact hn,
      memorizeFunctionParam_params_le c n hp⟩

lemma runBackrefOps_le (ops : List BackrefOp) (c : BackrefContext)
    (hn : c.Names.length ≤ BackrefMax) (hp : c.FunctionParams.length ≤ BackrefMax) :
    (runBackrefOps ops c).Names.length ≤ BackrefMax ∧
      (runBackrefOps ops c).FunctionParams.length ≤ BackrefMax := by
  induction ops generalizing c with
  | nil => exact ⟨hn, hp⟩
  | cons op t ih =>
    obtain ⟨hn2, hp2⟩ := applyBackrefOp_le c op hn hp
    exact ih (applyBackrefOp c op) hn2 hp2

end ms_demangle

/- ------------------------------------------------------------------ -/
/- Concrete external demanglers used by witnesses                     -/
/- ------------------------------------------------------------------ -/

/-- An external demangler that always fails. -/
def extNone : ExtDemangler := fun _ => none

/-- An Itanium demangler that always fails. -/
def itNone : ItaniumDemangler := fun _ _ => none

/-- An external demangler succeeding exactly on the Rust-prefixed tail
used by the C5 witness. -/
def ruRetry : ExtDemangler := fun m => if m = ['_', 'R'] then some ['r'] else none

/-- An Itanium demangler succeeding exactly on the stripped-dot remainder
used by the C6 witness. -/
def itDot : ItaniumDemangler := fun m _ => if m = ['_', 'Z', 'a'] then some ['f'] else none

/-- An Itanium demangler that always succeeds. -/
def itOk : ItaniumDemangler := fun _ _ => some ['o', 'k']

/-- A Microsoft demangler that always succeeds. -/
def msAny : ExtDemangler := fun _ => some ['m', 's']

/- ------------------------------------------------------------------ -/
/- Claim theorems                                                     -/
/- ------------------------------------------------------------------ -/

/-- C1: demangle is a total function (it is defined by structural
composition of total functions for every input string, empty, random or
truncated alike), and whenever the first non-Microsoft attempt fails, the
underscore retry fails or does not apply, and the Microsoft parser fails,
the returned string is exactly the original input. -/
theorem c1_demangle_total_fallback_identity
    (it : ItaniumDemangler) (ru dl ms : ExtDemangler) (s : List Char)
    (h1 : (nonMicrosoftDemangle it ru dl s [] false true).1 = false)
    (h2 : startsWithChar s '_' = true →
      (nonMicrosoftDemangle it ru dl (s.drop 1)
        (nonMicrosoftDemangle it ru dl s [] false true).2 false true).1 = false)
    (h3 : ms s = none) :
    demangle it ru dl ms s = s := by
  unfold demangle
  cases hs : startsWithChar s '_' with
  | true =>
    have h2t := h2 hs
    rw [List.drop_one] at h2t
    simp [h1, hs, h2t, h3]
  | false => simp [h1, hs, h3]

/-- Witness for C1: with every demangler failing, the underscore-prefixed
input comes back verbatim, both non-Microsoft attempts and the Microsoft
attempt having failed. -/
theorem c1_witness :
    demangle itNone extNone extNone extNone ['_', 'q'] = ['_', 'q'] :=
  c1_demangle_total_fallback_identity itNone extNone extNone extNone ['_', 'q']
    (by decide) (by decide) (by rfl)

/-- C5: when the first non-Microsoft attempt fails and the input starts
with an underscore, demangle retries nonMicrosoftDemangle on the input
with the single leading underscore removed, carrying over the Result
string left by the first attempt (which holds the preserved leading dot
whenever one was stripped), with CanHaveLeadingDot false at the retry;
when the retry succeeds its Result is returned. -/
theorem c5_underscore_retry
    (it : ItaniumDemangler) (ru dl ms : ExtDemangler) (s : List Char)
    (h1 : (nonMicrosoftDemangle it ru dl s [] false true).1 = false)
    (hs : startsWithChar s '_' = true)
    (h2 : (nonMicrosoftDemangle it ru dl (s.drop 1)
      (nonMicrosoftDemangle it ru dl s [] false true).2 false true).1 = true) :
    demangle it ru dl ms s =
      (nonMicrosoftDemangle it ru dl (s.drop 1)
        (nonMicrosoftDemangle it ru dl s [] false true).2 false true).2 := by
  unfold demangle
  rw [List.drop_one] at h2 ⊢
  simp [h1, hs, h2]

/-- Witness for C5: the first attempt fails on two underscores followed by
R, and the retry demangles the tail underscore-R. -/
theorem c5_witness :
    demangle itNone ruRetry extNone extNone ['_', '_', 'R'] =
      (nonMicrosoftDemangle itNone ruRetry extNone
        (['_', '_', 'R'].drop 1)
        (nonMicrosoftDemangle itNone ruRetry extNone ['_', '_', 'R'] [] false true).2
        false true).2 :=
  c5_underscore_retry itNone ruRetry extNone extNone ['_', '_', 'R']
    (by decide) (by decide) (by decide)

/-- C6: with CanHaveLeadingDot true and an input whose first character is
a dot, the dot is stripped before prefix sniffing, and on success the
returned Result is the dot followed by the demangled remainder (on
failure it is just the dot). -/
theorem c6_leading_dot_strip_and_prepend
    (it : ItaniumDemangler) (ru dl : ExtDemangler) (s r : List Char) (pp : Bool)
    (hdot : s.head? = some '.') :
    nonMicrosoftDemangle it ru dl s r true pp =
      match sniffDemangle it ru dl pp (s.drop 1) with
      | none => (false, ['.'])
      | some d => (true, '.' :: d) := by
  have hlen : 0 < s.length := by
    cases s with
    | nil => simp at hdot
    | cons a t => simp
  cases hsd : sniffDemangle it ru dl pp (s.drop 1) with
  | none =>
    rw [List.drop_one] at hsd
    simp [nonMicrosoftDemangle, hdot, hlen, hsd]
  | some d =>
    rw [List.drop_one] at hsd
    simp [nonMicrosoftDemangle, hdot, hlen, hsd]

/-- Witness for C6: a dot-prefixed Itanium-style input demangles to the
dot followed by the demangled remainder. -/
theorem c6_witness :
    nonMicrosoftDemangle itDot extNone extNone ['.', '_', 'Z', 'a'] [] true true =
      match sniffDemangle itDot extNone extNone true (['.', '_', 'Z', 'a'].drop 1) with
      | none => (false, ['.'])
      | some d => (true, '.' :: d) :=
  c6_leading_dot_strip_and_prepend itDot extNone extNone ['.', '_', 'Z', 'a'] [] true
    (by decide)

/-- C8: with CanHaveLeadingDot true, a dot-prefixed input on which no
non-Microsoft encoding matches makes nonMicrosoftDemangle return false
while the Result out-parameter has already been overwritten with the dot,
whatever value the caller had stored in it. -/
theorem c8_dot_failure_overwrites_result
    (it : ItaniumDemangler) (ru dl : ExtDemangler) (s r : List Char) (pp : Bool)
    (hdot : s.head? = some '.')
    (hfail : sniffDemangle it ru dl pp (s.drop 1) = none) :
    nonMicrosoftDemangle it ru dl s r true pp = (false, ['.']) := by
  have hlen : 0 < s.length := by
    cases s with
    | nil => simp at hdot
    | cons a t => simp
  rw [List.drop_one] at hfail
  simp [nonMicrosoftDemangle, hdot, hlen, hfail]

/-- Witness for C8: the caller passes a non-empty Result, every demangler
fails on the dot-prefixed input, and the Result comes back as just the
dot rather than unchanged. -/
theorem c8_witness :
    nonMicrosoftDemangle itNone extNone extNone ['.', 'q'] ['x', 'y'] true true =
      (false, ['.']) :=
  c8_dot_failure_overwrites_result itNone extNone extNone ['.', 'q'] ['x', 'y'] true
    (by decide) (by decide)

/-- C9: on a string consisting only of underscores (the empty string
included), find_first_not_of finds no position, so isItaniumEncoding
returns false from the position test alone: no character is ever indexed,
matching the short-circuit in the C++ that never evaluates S[Pos] when
Pos is npos. -/
theorem c9_all_underscores_safe (s : List Char)
    (h : ∀ c ∈ s, c = '_') :
    findFirstNotOf s '_' = none ∧ isItaniumEncoding s = false := by
  have hn : findFirstNotOf s '_' = none := (findFirstNotOf_eq_none_iff s '_').mpr h
  refine ⟨hn, ?_⟩
  unfold isItaniumEncoding
  rw [hn]

/-- Witness for C9 on four underscores. -/
theorem c9_witness :
    findFirstNotOf ['_', '_', '_', '_'] '_' = none ∧
      isItaniumEncoding ['_', '_', '_', '_'] = false :=
  c9_all_underscores_safe ['_', '_', '_', '_'] (by decide)

/-- C4: an input is classified Itanium-style iff the position of its first
non-underscore character is between 1 and 4 and that character is Z (one
to four leading underscores then Z); it is classified Rust-language iff it
begins with underscore R; it is classified D-language iff it begins with
underscore D. The spec-side rules are stated by ItaniumSpecRule,
RustSpecRule and DLangSpecRule. -/
theorem c4_prefix_classification (s : List Char) :
    (isItaniumEncoding s = true ↔ ItaniumSpecRule s) ∧
    (isRustEncoding s = true ↔ RustSpecRule s) ∧
    (isDLangEncoding s = true ↔ DLangSpecRule s) ∧
    (∀ (it : ItaniumDemangler) (ru dl : ExtDemangler) (pp : Bool),
      (isItaniumEncoding s = true → sniffDemangle it ru dl pp s = it s pp) ∧
      (isItaniumEncoding s = false → isRustEncoding s = true →
        sniffDemangle it ru dl pp s = ru s) ∧
      (isItaniumEncoding s = false → isRustEncoding s = false →
        isDLangEncoding s = true → sniffDemangle it ru dl pp s = dl s)) := by
  refine ⟨?_, ?_, ?_, ?_⟩
  · constructor
    · intro h
      unfold isItaniumEncoding at h
      cases hf : findFirstNotOf s '_' with
      | none =>
        rw [hf] at h
        exact Bool.noConfusion h
      | some pos =>
        rw [hf] at h
        simp only [Bool.and_eq_true, decide_eq_true_eq] at h
        obtain ⟨⟨hpos0, hpos4⟩, hz⟩ := h
        obtain ⟨a, rest, ha, hs⟩ := (findFirstNotOf_eq_some_iff s '_' pos).1 hf
        have hget : s.get? pos = some a := by
          rw [hs, List.get?_eq_getElem?, List.getElem?_append_right (by simp)]
          simp
        rw [hget] at hz
        have haz : a = 'Z' := Option.some.inj hz
        exact ⟨pos, rest, hpos0, hpos4, by rw [hs, haz]⟩
    · rintro ⟨k, rest, hk1, hk4, rfl⟩
      have hf : findFirstNotOf (List.replicate k '_' ++ 'Z' :: rest) '_' = some k :=
        (findFirstNotOf_eq_some_iff _ '_' k).2 ⟨'Z', rest, by decide, rfl⟩
      unfold isItaniumEncoding
      rw [hf]
      simp only [Bool.and_eq_true, decide_eq_true_eq]
      refine ⟨⟨hk1, hk4⟩, ?_⟩
      rw [List.get?_eq_getElem?, List.getElem?_append_right (by simp)]
      simp
  · constructor
    · intro h
      cases s with
      | nil => exact Bool.noConfusion h
      | cons a t =>
        cases t with
        | nil => exact Bool.noConfusion h
        | cons b t2 =>
          have h2 : (a == '_' && b == 'R') = true := h
          simp only [Bool.and_eq_true, beq_iff_eq] at h2
          exact ⟨t2, by rw [h2.1, h2.2]⟩
    · rintro ⟨rest, rfl⟩
      rfl
  · constructor
    · intro h
      cases s with
      | nil => exact Bool.noConfusion h
      | cons a t =>
        cases t with
        | nil => exact Bool.noConfusion h
        | cons b t2 =>
          have h2 : (a == '_' && b == 'D') = true := h
          simp only [Bool.and_eq_true, beq_iff_eq] at h2
          exact ⟨t2, by rw [h2.1, h2.2]⟩
    · rintro ⟨rest, rfl⟩
      rfl
  · intro it ru dl pp
    refine ⟨fun h1 => by simp [sniffDemangle, h1],
      fun h1 h2 => by simp [sniffDemangle, h1, h2],
      fun h1 h2 h3 => by simp [sniffDemangle, h1, h2, h3]⟩

/-- Witness for C4: the three classification rules instantiated at a
two-underscore Itanium-style input, and the check order instantiated so
that the Itanium demangler is the one consulted there. -/
theorem c4_witness :
    ((isItaniumEncoding ['_', '_', 'Z', 'a'] = true ↔ ItaniumSpecRule ['_', '_', 'Z', 'a']) ∧
      (isRustEncoding ['_', '_', 'Z', 'a'] = true ↔ RustSpecRule ['_', '_', 'Z', 'a']) ∧
      (isDLangEncoding ['_', '_', 'Z', 'a'] = true ↔ DLangSpecRule ['_', '_', 'Z', 'a'])) ∧
    sniffDemangle itOk extNone extNone true ['_', '_', 'Z', 'a']
      = itOk ['_', '_', 'Z', 'a'] true :=
  ⟨⟨(c4_prefix_classification ['_', '_', 'Z', 'a']).1,
    (c4_prefix_classification ['_', '_', 'Z', 'a']).2.1,
    (c4_prefix_classification ['_', '_', 'Z', 'a']).2.2.1⟩,
   ((c4_prefix_classification ['_', '_', 'Z', 'a']).2.2.2 itOk extNone extNone true).1
     (by decide)⟩

/-- C3: for every parse session (every sequence of memorization steps from
the initial context), neither backreference table ever holds more than 10
entries, and a backreference digit lookup succeeds exactly when the index
is below the current count; an out-of-range index yields none (the
parse-failure outcome), never a wrapped or stale read, since slots past
the count do not exist in the table model. -/
theorem c3_backref_bounds (ops : List ms_demangle.BackrefOp) (k : Nat) :
    (ms_demangle.runBackrefOps ops ms_demangle.BackrefContext.init).NamesCount
        ≤ ms_demangle.BackrefMax ∧
    (ms_demangle.runBackrefOps ops ms_demangle.BackrefContext.init).FunctionParamCount
        ≤ ms_demangle.BackrefMax ∧
    (((ms_demangle.runBackrefOps ops ms_demangle.BackrefContext.init).lookupName k).isSome
        = true ↔
      k < (ms_demangle.runBackrefOps ops ms_demangle.BackrefContext.init).NamesCount) ∧
    (((ms_demangle.runBackrefOps ops
          ms_demangle.BackrefContext.init).lookupFunctionParam k).isSome = true ↔
      k < (ms_demangle.runBackrefOps ops
          ms_demangle.BackrefContext.init).FunctionParamCount) := by
  obtain ⟨hn, hp⟩ :=
    ms_demangle.runBackrefOps_le ops ms_demangle.BackrefContext.init
      (by simp [ms_demangle.BackrefContext.init]) (by simp [ms_demangle.BackrefContext.init])
  refine ⟨hn, hp, ?_, ?_⟩
  · exact get?_isSome_iff _ k
  · exact get?_isSome_iff _ k

/-- A session that tries to memorize twelve names and twelve function
parameters: the tables must stop at ten. -/
def manyBackrefOps : List ms_demangle.BackrefOp :=
  (List.range 12).map ms_demangle.BackrefOp.memName
    ++ (List.range 12).map ms_demangle.BackrefOp.memParam

/-- Witness for C3 on a session of twelve name and twelve parameter
memorizations, looked up at digit 11. -/
theorem c3_witness :
    (ms_demangle.runBackrefOps manyBackrefOps ms_demangle.BackrefContext.init).NamesCount
        ≤ ms_demangle.BackrefMax ∧
    (ms_demangle.runBackrefOps manyBackrefOps
        ms_demangle.BackrefContext.init).FunctionParamCount ≤ ms_demangle.BackrefMax ∧
    (((ms_demangle.runBackrefOps manyBackrefOps
          ms_demangle.BackrefContext.init).lookupName 11).isSome = true ↔
      11 < (ms_demangle.runBackrefOps manyBackrefOps
          ms_demangle.BackrefContext.init).NamesCount) ∧
    (((ms_demangle.runBackrefOps manyBackrefOps
          ms_demangle.BackrefContext.init).lookupFunctionParam 11).isSome = true ↔
      11 < (ms_demangle.runBackrefOps manyBackrefOps
          ms_demangle.BackrefContext.init).FunctionParamCount) :=
  c3_backref_bounds manyBackrefOps 11

/-- C7: for each of the three arena allocation operations, when the head
block has room (after the alignment adjustment where one applies) the
result is a pointer bump within that block; otherwise a fresh block of
capacity max(AllocUnit, requestedSize) is pushed as the new head (for
alloc the capacity is AllocUnit, which under the static size bound equals
that maximum) and the allocation is served from its start. -/
theorem c7_arena_allocation
    (newBuf Size sizeT alignT Count : Nat) (h : ms_demangle.AllocatorNode)
    (t : ms_demangle.Arena)
    (halign : 0 < alignT) (hsize : sizeT < ms_demangle.AllocUnit) :
    (h.Used + Size ≤ h.Capacity →
      ms_demangle.allocUnalignedBuffer newBuf Size (h :: t) =
        ({ h with Used := h.Used + Size } :: t, h.Buf + h.Used) ∧
      h.Buf + h.Used + Size ≤ h.Buf + h.Capacity) ∧
    (h.Capacity < h.Used + Size →
      ms_demangle.allocUnalignedBuffer newBuf Size (h :: t) =
        ({ Buf := newBuf, Used := Size, Capacity := max ms_demangle.AllocUnit Size }
          :: { h with Used := h.Used + Size } :: t, newBuf)) ∧
    (h.Used + Count * sizeT
        + (ms_demangle.alignUp (h.Buf + h.Used) alignT - (h.Buf + h.Used)) ≤ h.Capacity →
      ms_demangle.allocArray newBuf sizeT alignT Count (h :: t) =
        ({ h with Used := h.Used + Count * sizeT
            + (ms_demangle.alignUp (h.Buf + h.Used) alignT - (h.Buf + h.Used)) } :: t,
          ms_demangle.alignUp (h.Buf + h.Used) alignT) ∧
      h.Buf + h.Used ≤ ms_demangle.alignUp (h.Buf + h.Used) alignT ∧
      ms_demangle.alignUp (h.Buf + h.Used) alignT + Count * sizeT
        ≤ h.Buf + h.Capacity) ∧
    (h.Capacity < h.Used + Count * sizeT
        + (ms_demangle.alignUp (h.Buf + h.Used) alignT - (h.Buf + h.Used)) →
      ms_demangle.allocArray newBuf sizeT alignT Count (h :: t) =
        ({ Buf := newBuf, Used := Count * sizeT,
            Capacity := max ms_demangle.AllocUnit (Count * sizeT) }
          :: { h with Used := h.Used + Count * sizeT
              + (ms_demangle.alignUp (h.Buf + h.Used) alignT - (h.Buf + h.Used)) } :: t,
          newBuf)) ∧
    (h.Used + sizeT
        + (ms_demangle.alignUp (h.Buf + h.Used) alignT - (h.Buf + h.Used)) ≤ h.Capacity →
      ms_demangle.alloc newBuf sizeT alignT (h :: t) =
        ({ h with Used := h.Used + sizeT
            + (ms_demangle.alignUp (h.Buf + h.Used) alignT - (h.Buf + h.Used)) } :: t,
          ms_demangle.alignUp (h.Buf + h.Used) alignT) ∧
      h.Buf + h.Used ≤ ms_demangle.alignUp (h.Buf + h.Used) alignT ∧
      ms_demangle.alignUp (h.Buf + h.Used) alignT + sizeT ≤ h.Buf + h.Capacity) ∧
    (h.Capacity < h.Used + sizeT
        + (ms_demangle.alignUp (h.Buf + h.Used) alignT - (h.Buf + h.Used)) →
      ms_demangle.alloc newBuf sizeT alignT (h :: t) =
        ({ Buf := newBuf, Used := sizeT, Capacity := ms_demangle.AllocUnit }
          :: { h with Used := h.Used + sizeT
              + (ms_demangle.alignUp (h.Buf + h.Used) alignT - (h.Buf + h.Used)) } :: t,
          newBuf) ∧
      ms_demangle.AllocUnit = max ms_demangle.AllocUnit sizeT) := by
  have hge := ms_demangle.alignUp_ge (h.Buf + h.Used) alignT halign
  refine ⟨?_, ?_, ?_, ?_, ?_, ?_⟩
  · intro hc
    refine ⟨?_, by omega⟩
    simp only [ms_demangle.allocUnalignedBuffer]
    rw [if_pos hc]
  · intro hc
    simp only [ms_demangle.allocUnalignedBuffer]
    rw [if_neg (by omega)]
  · intro hc
    refine ⟨?_, hge, by omega⟩
    simp only [ms_demangle.allocArray]
    rw [if_pos hc]
  · intro hc
    simp only [ms_demangle.allocArray]
    rw [if_neg (by omega)]
  · intro hc
    refine ⟨?_, hge, by omega⟩
    simp only [ms_demangle.alloc]
    rw [if_pos hc]
  · intro hc
    refine ⟨?_, (Nat.max_eq_left (Nat.le_of_lt hsize)).symm⟩
    simp only [ms_demangle.alloc]
    rw [if_neg (by omega)]

/-- Witness for C7: a bump inside a block with room and an overflow into a
fresh block, for each of the three operations, at concrete sizes. -/
theorem c7_witness :
    (ms_demangle.allocUnalignedBuffer 5000 8 [⟨100, 10, 4096⟩] =
        ([⟨100, 18, 4096⟩], 110) ∧ 100 + 10 + 8 ≤ 100 + 4096) ∧
    ms_demangle.allocUnalignedBuffer 5000 5000 [⟨100, 4090, 4096⟩] =
      ([⟨5000, 5000, 5000⟩, ⟨100, 9090, 4096⟩], 5000) ∧
    (ms_demangle.allocArray 5000 8 4 2 [⟨100, 10, 4096⟩] =
        ([⟨100, 28, 4096⟩], 112) ∧ 110 ≤ 112 ∧ 112 + 16 ≤ 100 + 4096) ∧
    ms_demangle.allocArray 5000 8 4 2 [⟨100, 4090, 4096⟩] =
      ([⟨5000, 16, 4096⟩, ⟨100, 4108, 4096⟩], 5000) ∧
    (ms_demangle.alloc 5000 8 4 [⟨100, 10, 4096⟩] =
        ([⟨100, 20, 4096⟩], 112) ∧ 110 ≤ 112 ∧ 112 + 8 ≤ 100 + 4096) ∧
    (ms_demangle.alloc 5000 8 4 [⟨100, 4090, 4096⟩] =
        ([⟨5000, 8, 4096⟩, ⟨100, 4100, 4096⟩], 5000) ∧
      ms_demangle.AllocUnit = max ms_demangle.AllocUnit 8) := by
  have cA := c7_arena_allocation 5000 8 8 4 2 ⟨100, 10, 4096⟩ [] (by decide) (by decide)
  have cB := c7_arena_allocation 5000 5000 8 4 2 ⟨100, 4090, 4096⟩ [] (by decide) (by decide)
  exact ⟨cA.1 (by decide), cB.2.1 (by decide), cA.2.2.1 (by decide),
    cB.2.2.2.1 (by decide), cA.2.2.2.2.1 (by decide), cB.2.2.2.2.2 (by decide)⟩

/-- C10: under the static_assert bound (size of T strictly below the 4096
block unit), the overflow branch of alloc pushes a fresh block of exactly
the block-unit capacity and the new object always fits in it from its
start. -/
theorem c10_alloc_fits_fresh_block
    (newBuf sizeT alignT : Nat) (h : ms_demangle.AllocatorNode) (t : ms_demangle.Arena)
    (hsize : sizeT < ms_demangle.AllocUnit)
    (hover : h.Capacity < h.Used + sizeT
      + (ms_demangle.alignUp (h.Buf + h.Used) alignT - (h.Buf + h.Used))) :
    ms_demangle.alloc newBuf sizeT alignT (h :: t) =
      ({ Buf := newBuf, Used := sizeT, Capacity := ms_demangle.AllocUnit }
        :: { h with Used := h.Used + sizeT
            + (ms_demangle.alignUp (h.Buf + h.Used) alignT - (h.Buf + h.Used)) } :: t,
        newBuf) ∧
    sizeT ≤ ms_demangle.AllocUnit ∧
    newBuf + sizeT ≤ newBuf + ms_demangle.AllocUnit := by
  refine ⟨?_, Nat.le_of_lt hsize, by omega⟩
  simp only [ms_demangle.alloc]
  rw [if_neg (by omega)]

/-- Witness for C10: an almost-full head block overflows and the eight-byte
object lands at the start of a fresh 4096-byte block. -/
theorem c10_witness :
    ms_demangle.alloc 6000 8 4 [⟨100, 4090, 4096⟩] =
      ([⟨6000, 8, 4096⟩, ⟨100, 4100, 4096⟩], 6000) ∧
    8 ≤ ms_demangle.AllocUnit ∧
    6000 + 8 ≤ 6000 + ms_demangle.AllocUnit :=
  c10_alloc_fits_fresh_block 6000 8 4 ⟨100, 4090, 4096⟩ []
    (by decide) (by decide)

/-- C2 counterexample: the input underscore-Z-3fooi is recognized by the
Itanium prefix rule, yet when the Itanium demangler fails on it the
dispatcher does invoke the Microsoft parser on that very input, and the
Microsoft answer is returned; so a prefix-recognized input can reach the
Microsoft parser, contrary to the claim. -/
theorem c2_counterexample :
    isItaniumEncoding ['_', 'Z', '3', 'f', 'o', 'o', 'i'] = true ∧
    ((demangleT itNone extNone extNone msAny ['_', 'Z', '3', 'f', 'o', 'o', 'i']).2.contains
      (DKind.microsoft, ['_', 'Z', '3', 'f', 'o', 'o', 'i'])) = true ∧
    demangle itNone extNone extNone msAny ['_', 'Z', '3', 'f', 'o', 'o', 'i']
      = ['m', 's'] := by
  refine ⟨by decide, by decide, by decide⟩

/-- C2 (amended): when the demangler selected by a non-Microsoft prefix
rule succeeds on the input, the dispatcher never invokes the Microsoft
parser; and for an input matching none of the prefix rules, the
dispatcher never invokes a non-Microsoft demangler on that input itself
(the underscore retry may invoke one, but only on the tail of the
input). -/
theorem c2_dispatch_routing (it : ItaniumDemangler) (ru dl ms : ExtDemangler)
    (s : List Char) :
    ((sniffDemangle it ru dl true s).isSome = true →
      (demangleT it ru dl ms s).2.all (fun c => !(c.1 == DKind.microsoft)) = true) ∧
    (isItaniumEncoding s = false → isRustEncoding s = false →
      isDLangEncoding s = false →
      (demangleT it ru dl ms s).2.all
        (fun c => c.1 == DKind.microsoft || !(c.2 == s)) = true) := by
  constructor
  · intro hsome
    have hfst : (nonMicrosoftDemangle it ru dl s [] false true).1 = true := by
      rw [nonMicrosoftDemangle_fst_noDot]
      exact hsome
    rw [demangleT_trace_of_first_success it ru dl ms s hfst, List.all_eq_true]
    intro c hc
    have hk := (sniffCalls_mem s c hc).1
    simp [hk]
  · intro h1 h2 h3
    have hcalls : sniffCalls s = [] := sniffCalls_eq_nil_of_noMatch s h1 h2 h3
    have hfst : (nonMicrosoftDemangle it ru dl s [] false true).1 = false := by
      rw [nonMicrosoftDemangle_fst_noDot,
        sniffDemangle_eq_none_of_noMatch it ru dl true s h1 h2 h3]
      rfl
    obtain htr | htr | htr := demangleT_trace_of_first_fail it ru dl ms s hfst <;>
      rw [htr, hcalls, List.all_eq_true] <;> intro c hc
    · rw [List.nil_append] at hc
      exact call_not_on_self_of_mem_drop s c hc
    · rw [List.nil_append, List.mem_append] at hc
      rcases hc with hc | hc
      · exact call_not_on_self_of_mem_drop s c hc
      · rw [List.mem_singleton] at hc
        subst hc
        simp
    · rw [List.nil_append, List.mem_singleton] at hc
      subst hc
      simp

/-- Witness for C2 (amended): with a succeeding Itanium demangler the
trace of the Itanium-prefixed input has no Microsoft call, and on an
unprefixed input no demangler call carries the input itself except the
Microsoft one. -/
theorem c2_witness :
    ((demangleT itOk extNone extNone msAny ['_', 'Z', 'a']).2.all
        (fun c => !(c.1 == DKind.microsoft)) = true) ∧
    ((demangleT itNone extNone extNone msAny ['g', 'a', 'r']).2.all
        (fun c => c.1 == DKind.microsoft || !(c.2 == ['g', 'a', 'r'])) = true) :=
  ⟨(c2_dispatch_routing itOk extNone extNone msAny ['_', 'Z', 'a']).1 (by decide),
   (c2_dispatch_routing itNone extNone extNone msAny ['g', 'a', 'r']).2
     (by decide) (by decide) (by decide)⟩

end Demangler
